import Mathlib

/-!
Verification of the concurrent-building-blocks library:
shallow embeddings of `list_set.rs`, `hello_server/cache.rs`,
`hello_server/thread_pool.rs` and the elimination-backoff stack,
with theorems settling the specification claims.
-/

set_option maxHeartbeats 1000000
set_option linter.unusedSectionVars false

namespace CS431

/-! ## OrderedListSet (src/homework/src/list_set.rs)

The list is a sorted singly linked list of nodes; we embed its logical
content as a `List T`.  The lock-coupling guards only serialize the
traversal; the sequential effect of each operation on the node chain is
what the functions below translate, statement by statement.
-/

section ListSet

variable {T : Type} [LinearOrder T]

/-- The loop of `OrderedListSet::insert` (list_set.rs lines 103-129).
`cur` is the data of the node currently pointed to by `head_node_guard`,
`rest` the chain after it.  Each iteration: compare `key` with the current
node (equality → `Err(key)`), then with the next pointer (null → append;
`key` less than next → splice in between; otherwise advance). -/
def insertLoop (key : T) : T → List T → Except T (List T)
  | cur, [] =>
    if key = cur then Except.error key
    else Except.ok [cur, key]
  | cur, next :: rest2 =>
    if key = cur then Except.error key
    else if key < next then Except.ok (cur :: key :: next :: rest2)
    else (insertLoop key next rest2).map (fun l => cur :: l)

/-- `OrderedListSet::insert` (list_set.rs lines 84-131).
Case 1: empty list → new single node.  Case 2: `key` smaller than the head
key → new head.  Otherwise enter the loop at the head node. -/
def listSetInsert (key : T) (l : List T) : Except T (List T) :=
  match l with
  | [] => Except.ok [key]
  | h :: t => if key < h then Except.ok (key :: h :: t) else insertLoop key h t

/-- The loop of `OrderedListSet::remove` (list_set.rs lines 152-174).
`cur` is the current node, `rest` the chain after it; a null next pointer
yields `Err(())`, a next node carrying `key` is unlinked and its data
returned, otherwise the cursor advances. -/
def removeLoop (key : T) : T → List T → Except Unit (T × List T)
  | _, [] => Except.error ()
  | cur, next :: rest2 =>
    if next = key then Except.ok (next, cur :: rest2)
    else (removeLoop key next rest2).map (fun p => (p.1, cur :: p.2))

/-- `OrderedListSet::remove` (list_set.rs lines 134-176): empty list →
`Err(())`; head node carrying `key` → unlink the head; otherwise loop. -/
def listSetRemove (key : T) (l : List T) : Except Unit (T × List T) :=
  match l with
  | [] => Except.error ()
  | h :: t => if h = key then Except.ok (h, t) else removeLoop key h t

/-- One mutating operation on the set. -/
inductive SetOp (T : Type) where
  | ins (key : T)
  | rem (key : T)

/-- Apply one operation; an `Err` outcome leaves the node chain unchanged
(both `insert` and `remove` return before any mutation in their error
paths). -/
def applyOp (l : List T) : SetOp T → List T
  | SetOp.ins k =>
    match listSetInsert k l with
    | Except.ok l2 => l2
    | Except.error _ => l
  | SetOp.rem k =>
    match listSetRemove k l with
    | Except.ok p => p.2
    | Except.error _ => l

/-- Apply a sequence of operations starting from a given chain. -/
def applyOps (l : List T) : List (SetOp T) → List T
  | [] => l
  | op :: ops => applyOps (applyOp l op) ops

/-- `Iter::next` (list_set.rs lines 192-208).  The iterator state is the
`Option` guard: `take().unwrap()` on an already-consumed state panics
(modelled as the outer `none`); a null pointer returns `None` leaving the
state consumed; otherwise the element is produced and the guard advances. -/
def iterNext {T : Type} : Option (List T) → Option (Option T × Option (List T))
  | none => none
  | some [] => some (none, none)
  | some (x :: rest) => some (some x, some rest)

/-- `OrderedListSet::iter` (list_set.rs lines 184-186): the fresh iterator
holds the head guard. -/
def iterNew {T : Type} (l : List T) : Option (List T) := some l

/-- Run the iterator through `iterNext`, collecting at most `n` produced
elements (a full traversal uses `n` = length). -/
def iterCollect {T : Type} : Nat → Option (List T) → List T
  | 0, _ => []
  | n + 1, st =>
    match iterNext st with
    | some (some v, st2) => v :: iterCollect n st2
    | _ => []

/-- Reference insertion-in-order function used to characterize the result
of `listSetInsert`. -/
def sIns (key : T) : List T → List T
  | [] => [key]
  | h :: t => if key < h then key :: h :: t else h :: sIns key t

end ListSet

/-! ## Cache (src/homework/src/hello_server/cache.rs)

`Cache<K, V>` wraps `RwLock<HashMap<K, Option<V>>>`.  We embed the table
as a function `K → Option (Option V)`: `none` = key absent, `some none` =
`None` entry (computation pending), `some (some v)` = `Some(v)` entry
(ready value).
-/

section CacheDefs

variable {K V : Type} [DecidableEq K]

/-- `HashMap::insert`: point update of the table. -/
def tblInsert (m : K → Option (Option V)) (k : K) (e : Option V) :
    K → Option (Option V) :=
  fun k2 => if k2 = k then some e else m k2

/-- `Cache::get_or_insert_with` (cache.rs lines 26-74) under sequential
(single-caller) execution.  The result is `none` when the call never
returns (the wait loop spins on a pending entry no other thread will ever
complete), and otherwise carries the returned value, the table afterwards,
and the number of times `f` was invoked.
Branches, in source order: `is_exist` with a `Some` entry → the wait loop
breaks at once and the value is cloned out, `f` not called; `is_exist`
with a `None` entry → the wait loop spins forever; key absent → under the
write lock the double-check still finds no entry (nothing else runs), a
`None` marker is inserted, `f key` runs, and the result is published. -/
def get_or_insert_with (m : K → Option (Option V)) (key : K) (f : K → V) :
    Option (V × (K → Option (Option V)) × Nat) :=
  match m key with
  | some (some v) => some (v, m, 0)
  | some none => none
  | none =>
    some (f key, tblInsert (tblInsert m key none) key (some (f key)), 1)

end CacheDefs

/-! ## Cache under concurrent callers: interleaving transition system

Each thread runs `get_or_insert_with key f`.  Every lock-protected access
to the table in the source is one atomic step: the initial `contains_key`
read, each read in the wait loop, the final read-and-clone, the
check-and-claim under the write lock, and the publishing write.  `f` runs
between the claim and the publish with no lock held.
-/

section CacheTSDefs

variable {K V ι : Type} [DecidableEq K] [DecidableEq ι]

/-- Control locations of one `get_or_insert_with` caller.
`start`: before the `contains_key` read; `wait`: in the wait loop;
`readRes`: after the loop broke, before the final read-and-clone;
`claim`: before the write-locked existence check; `run`: owns the pending
marker, about to run `f`; `publish`: holds the computed value, about to
write it back; `done v`: returned `v`; `panicked`: a `unwrap` failed. -/
inductive CachePc (V : Type) where
  | start
  | wait
  | readRes
  | claim
  | run
  | publish
  | done (v : V)
  | panicked
deriving DecidableEq

/-- Shared table, number of invocations of `f` so far, and each thread's
control location. -/
structure CacheState (K V ι : Type) where
  table : K → Option (Option V)
  fCount : Nat
  pcs : ι → CachePc V

/-- Move thread `i` to location `p`, leaving the table alone. -/
def setPc (σ : CacheState K V ι) (i : ι) (p : CachePc V) : CacheState K V ι :=
  ⟨σ.table, σ.fCount, Function.update σ.pcs i p⟩

/-- One atomic step of thread `i` running `get_or_insert_with key f`,
translated access by access from cache.rs lines 26-74. -/
inductive CacheThreadStep (key : K) (f : K → V) (i : ι) :
    CacheState K V ι → CacheState K V ι → Prop where
  | startHit (σ : CacheState K V ι) (e : Option V) :
      σ.pcs i = CachePc.start → σ.table key = some e →
      CacheThreadStep key f i σ (setPc σ i CachePc.wait)
  | startMiss (σ : CacheState K V ι) :
      σ.pcs i = CachePc.start → σ.table key = none →
      CacheThreadStep key f i σ (setPc σ i CachePc.claim)
  | waitPanic (σ : CacheState K V ι) :
      σ.pcs i = CachePc.wait → σ.table key = none →
      CacheThreadStep key f i σ (setPc σ i CachePc.panicked)
  | waitReady (σ : CacheState K V ι) (v : V) :
      σ.pcs i = CachePc.wait → σ.table key = some (some v) →
      CacheThreadStep key f i σ (setPc σ i CachePc.readRes)
  | readResOk (σ : CacheState K V ι) (v : V) :
      σ.pcs i = CachePc.readRes → σ.table key = some (some v) →
      CacheThreadStep key f i σ (setPc σ i (CachePc.done v))
  | readResPanicAbsent (σ : CacheState K V ι) :
      σ.pcs i = CachePc.readRes → σ.table key = none →
      CacheThreadStep key f i σ (setPc σ i CachePc.panicked)
  | readResPanicPending (σ : CacheState K V ι) :
      σ.pcs i = CachePc.readRes → σ.table key = some none →
      CacheThreadStep key f i σ (setPc σ i CachePc.panicked)
  | claimLost (σ : CacheState K V ι) (e : Option V) :
      σ.pcs i = CachePc.claim → σ.table key = some e →
      CacheThreadStep key f i σ (setPc σ i CachePc.wait)
  | claimWon (σ : CacheState K V ι) :
      σ.pcs i = CachePc.claim → σ.table key = none →
      CacheThreadStep key f i σ
        ⟨tblInsert σ.table key none, σ.fCount, Function.update σ.pcs i CachePc.run⟩
  | runF (σ : CacheState K V ι) :
      σ.pcs i = CachePc.run →
      CacheThreadStep key f i σ
        ⟨σ.table, σ.fCount + 1, Function.update σ.pcs i CachePc.publish⟩
  | publishStep (σ : CacheState K V ι) :
      σ.pcs i = CachePc.publish →
      CacheThreadStep key f i σ
        ⟨tblInsert σ.table key (some (f key)), σ.fCount,
          Function.update σ.pcs i (CachePc.done (f key))⟩

/-- Interleaving: some thread takes a step. -/
def CacheStep (key : K) (f : K → V) (σ σ2 : CacheState K V ι) : Prop :=
  ∃ i, CacheThreadStep key f i σ σ2

/-- All callers at the entry point; the table is the initial one. -/
def cacheInit (m0 : K → Option (Option V)) : CacheState K V ι :=
  ⟨m0, 0, fun _ => CachePc.start⟩

/-- Thread `i` owns the pending marker (it will run, or has run, `f`). -/
def IsClaimer (σ : CacheState K V ι) (i : ι) : Prop :=
  σ.pcs i = CachePc.run ∨ σ.pcs i = CachePc.publish

/-- Inductive invariant of the cache protocol for a fixed `key`:
no thread panics; waiting and result-reading threads can rely on the
entry being present resp. ready; finished threads saw the published value
`f key`; and the entry state determines the claimer and how many times
`f` has run (absent: no claimer and zero runs; pending: exactly one
claimer, `f` run iff it reached the publish point; ready: nobody
mid-computation, `f` ran exactly once and the stored value is `f key`). -/
structure CacheInv (key : K) (f : K → V) (σ : CacheState K V ι) : Prop where
  noPanic : ∀ i, σ.pcs i ≠ CachePc.panicked
  waitSome : ∀ i, σ.pcs i = CachePc.wait → σ.table key ≠ none
  readReady : ∀ i, σ.pcs i = CachePc.readRes →
    σ.table key = some (some (f key))
  doneReady : ∀ i v, σ.pcs i = CachePc.done v → v = f key ∧
    σ.table key = some (some (f key))
  absent : σ.table key = none → σ.fCount = 0 ∧ ∀ i, ¬ IsClaimer σ i
  pending : σ.table key = some none →
    ∃ i, ((σ.pcs i = CachePc.run ∧ σ.fCount = 0) ∨
          (σ.pcs i = CachePc.publish ∧ σ.fCount = 1)) ∧
      ∀ j, IsClaimer σ j → j = i
  ready : ∀ v, σ.table key = some (some v) → v = f key ∧ σ.fCount = 1 ∧
    ∀ i, ¬ IsClaimer σ i

end CacheTSDefs

/-! ## ThreadPool (src/homework/src/hello_server/thread_pool.rs) -/

section ThreadPoolDefs

/-- `ThreadPoolInner::start_job` (thread_pool.rs lines 65-69): increment
the job count. -/
def start_job (c : Nat) : Nat := c + 1

/-- `ThreadPoolInner::finish_job` (thread_pool.rs lines 72-77): decrement
the job count (and notify when it reaches zero). -/
def finish_job (c : Nat) : Nat := c - 1

/-- Accounting of one pass through the body of the worker loop
(thread_pool.rs lines 24-30) for a single received job. -/
structure JobAccounting where
  incs : Nat
  decs : Nat
  countAfter : Nat
  workerPanicked : Bool

/-- One received job processed by `Worker::new`'s loop body: `start_job`,
then `f()`, then `finish_job`.  There is no unwind guard around `f()`: a
panic in the job propagates out of the closure, so `finish_job` is never
reached and the worker thread dies. -/
def workerRunJob (c : Nat) (jobPanics : Bool) : JobAccounting :=
  let c1 := start_job c
  if jobPanics then ⟨1, 0, c1, true⟩
  else ⟨1, 1, finish_job c1, false⟩

/-- Outcome of joining one worker thread: `none` if it ran to completion,
`some msg` if it panicked with payload `msg`. -/
def WorkerOutcome : Type := Option String

/-- Joining the workers vector in order (each `Worker::drop`,
thread_pool.rs lines 47-52, does `thread.join().unwrap()`): every handle
is joined, and the first panic payload encountered propagates. -/
def joinWorkers : List (Option String) → Nat × Option String
  | [] => (0, none)
  | w :: ws =>
    let r := joinWorkers ws
    (r.1 + 1,
     match w with
     | some msg => some msg
     | none => r.2)

/-- The pool state relevant to teardown: the eventual join outcome of each
worker thread, and whether the `job_sender` is still held. -/
structure ThreadPoolState where
  workers : List (Option String)
  jobSenderOpen : Bool

/-- Observable effect of tearing a pool down. -/
structure ThreadPoolTeardown where
  channelClosed : Bool
  joinedThreads : Nat
  propagatedPanic : Option String

/-- `ThreadPool::drop` (thread_pool.rs lines 140-144) plus the implicit
drop of the `workers` field: the body takes and drops `job_sender`
(closing the channel); then each `Worker` in the vector is dropped, which
joins its thread and re-raises a worker panic. -/
def threadPoolDrop (p : ThreadPoolState) : ThreadPoolTeardown :=
  ⟨true, (joinWorkers p.workers).1, (joinWorkers p.workers).2⟩

/-- The worker loop once the channel has been closed: `recv()` keeps
returning the jobs still buffered in the channel, and returns `Err` once
it is drained, upon which the worker breaks out of the loop.  The result
counts the jobs executed before exiting. -/
def workerDrainClosed : List Unit → Nat
  | [] => 0
  | _ :: q => workerDrainClosed q + 1

/-- The fields of a freshly constructed pool that the constructor claim
mentions: worker ids, the open sender, the job count. -/
structure ThreadPoolCtor where
  workers : List Nat
  jobSenderOpen : Bool
  jobCount : Nat

/-- `ThreadPool::new` (thread_pool.rs lines 101-118): `assert!(size > 0)`
(an `Except.error` models the panic), then one worker per id in
`0..size`. -/
def threadPoolNew (size : Nat) : Except String ThreadPoolCtor :=
  if 0 < size then Except.ok ⟨List.range size, true, 0⟩
  else Except.error "assertion failed: size > 0"

/-- Control locations of the single worker thread in the join-race model:
blocked in `recv()`; holding a received job before `start_job`; between
`start_job` and the job body; after the body, before `finish_job`. -/
inductive WorkerPc where
  | recv
  | gotJob
  | exec
  | finish
deriving DecidableEq

/-- Control locations of the thread executing `ThreadPool::join`
(thread_pool.rs lines 131-134): spinning on `sender.len() > 0`; blocked in
`wait_empty`; returned from `join`. -/
inductive JoinerPc where
  | checkLen
  | waitCount
  | returned
deriving DecidableEq

/-- State of a one-worker pool during a `join` call: the jobs buffered in
the channel, the shared `job_count`, both threads' locations, and how many
job bodies have finished executing. -/
structure PoolState where
  queue : List Unit
  count : Nat
  worker : WorkerPc
  joiner : JoinerPc
  executed : Nat
deriving DecidableEq

/-- Interleaved steps of the worker loop (thread_pool.rs lines 21-36) and
of `ThreadPool::join` (lines 131-134). -/
inductive PoolStep : PoolState → PoolState → Prop where
  | recvJob (q2 : List Unit) (c : Nat) (j : JoinerPc) (e : Nat) :
      PoolStep ⟨() :: q2, c, WorkerPc.recv, j, e⟩ ⟨q2, c, WorkerPc.gotJob, j, e⟩
  | startJobStep (q : List Unit) (c : Nat) (j : JoinerPc) (e : Nat) :
      PoolStep ⟨q, c, WorkerPc.gotJob, j, e⟩ ⟨q, start_job c, WorkerPc.exec, j, e⟩
  | execJobStep (q : List Unit) (c : Nat) (j : JoinerPc) (e : Nat) :
      PoolStep ⟨q, c, WorkerPc.exec, j, e⟩ ⟨q, c, WorkerPc.finish, j, e + 1⟩
  | finishJobStep (q : List Unit) (c : Nat) (j : JoinerPc) (e : Nat) :
      PoolStep ⟨q, c, WorkerPc.finish, j, e⟩ ⟨q, finish_job c, WorkerPc.recv, j, e⟩
  | joinLenZero (c : Nat) (w : WorkerPc) (e : Nat) :
      PoolStep ⟨[], c, w, JoinerPc.checkLen, e⟩ ⟨[], c, w, JoinerPc.waitCount, e⟩
  | joinCountZero (q : List Unit) (w : WorkerPc) (e : Nat) :
      PoolStep ⟨q, 0, w, JoinerPc.waitCount, e⟩ ⟨q, 0, w, JoinerPc.returned, e⟩

/-- One job has been `execute`d (it sits in the channel), the worker is
blocked in `recv`, and the caller now enters `join`. -/
def poolRaceInit : PoolState := ⟨[()], 0, WorkerPc.recv, JoinerPc.checkLen, 0⟩

/-- The racy interleaving's final state: the worker has dequeued the job
but not yet called `start_job`, and `join` has returned. -/
def poolRaceFinal : PoolState := ⟨[], 0, WorkerPc.gotJob, JoinerPc.returned, 0⟩

end ThreadPoolDefs

/-! ## Elimination-backoff stack (src/homework/src/elim_stack/) -/

section StackDefs

variable {T : Type}

/-- Modelled from the spec: `base.rs`, `elim.rs` and `treiber_stack.rs`
are not present under `src/` (only `mod.rs` is), so the stack is modelled
from spec sections 4.1-4.2 and 8: the stack is a chain of nodes from the
top; `push(value)` makes a new node the top.  With a single thread the
elimination layer never pairs operations, so `ElimStack` push/pop reduce
to the underlying Treiber stack operations. -/
def stackPush (v : T) (s : List T) : List T := v :: s

/-- Modelled from the spec: `pop()` removes and returns the most recently
pushed not-yet-popped value (the top node), or returns `none` when the
stack is empty — an ordinary result, never an error. -/
def stackPop : List T → Option T × List T
  | [] => (none, [])
  | x :: s => (some x, s)

/-- Push the values of `vs` in order onto stack `s`. -/
def stackPushAll (s : List T) (vs : List T) : List T :=
  vs.foldl (fun acc v => stackPush v acc) s

/-- Repeatedly pop until empty, collecting the returned values: each cons
cell is exactly what `stackPop` returns on a nonempty stack. -/
def stackPopAll : List T → List T
  | [] => []
  | x :: s => x :: stackPopAll s

end StackDefs

section ListSetLemmas

variable {T : Type} [LinearOrder T]

lemma insertLoop_error_of_mem (key : T) :
    ∀ (rest : List T) (cur : T), List.Pairwise (· < ·) (cur :: rest) →
      key ∈ cur :: rest → insertLoop key cur rest = Except.error key := by
  intro rest
  induction rest with
  | nil =>
    intro cur _ hmem
    have hk : key = cur := by simpa using hmem
    simp [insertLoop, hk]
  | cons next rest2 ih =>
    intro cur hsort hmem
    by_cases hcur : key = cur
    · simp [insertLoop, hcur]
    · have hmem2 : key ∈ next :: rest2 := by
        rcases List.mem_cons.mp hmem with h | h
        · exact absurd h hcur
        · exact h
      have hcl : cur < key := (List.pairwise_cons.mp hsort).1 key hmem2
      have hnk : ¬ key < next := by
        rcases List.mem_cons.mp hmem2 with h | h
        · intro hlt; exact absurd h (ne_of_lt hlt)
        · intro hlt
          have : next < key :=
            (List.pairwise_cons.mp (List.pairwise_cons.mp hsort).2).1 key h
          exact absurd hlt (asymm this)
      have := ih next (List.pairwise_cons.mp hsort).2 hmem2
      simp [insertLoop, hcur, hnk, this, Except.map]

lemma insertLoop_ok_eq (key : T) :
    ∀ (rest : List T) (cur : T) (l2 : List T), cur < key →
      insertLoop key cur rest = Except.ok l2 → l2 = cur :: sIns key rest := by
  intro rest
  induction rest with
  | nil =>
    intro cur l2 hlt hok
    have hne : ¬ key = cur := fun h => absurd h (ne_of_gt hlt)
    simp [insertLoop, hne] at hok
    simp [sIns, ← hok]
  | cons next rest2 ih =>
    intro cur l2 hlt hok
    have hne : ¬ key = cur := fun h => absurd h (ne_of_gt hlt)
    by_cases hkn : key < next
    · simp [insertLoop, hne, hkn] at hok
      simp [sIns, hkn, ← hok]
    · simp [insertLoop, hne, hkn] at hok
      rcases hrec : insertLoop key next rest2 with e | l3
      · rw [hrec] at hok; simp [Except.map] at hok
      · rw [hrec] at hok; simp [Except.map] at hok
        have hnk : next < key := by
          rcases lt_or_eq_of_le (le_of_not_lt hkn) with h | h
          · exact h
          · exfalso
            have : insertLoop key next rest2 = Except.error key := by
              cases rest2 <;> simp [insertLoop, h.symm]
            rw [this] at hrec; exact Except.noConfusion hrec
        have := ih next l3 hnk hrec
        simp [sIns, hkn, ← hok, this]

lemma listSetInsert_ok_eq (key : T) (l l2 : List T)
    (hok : listSetInsert key l = Except.ok l2) : l2 = sIns key l := by
  match l with
  | [] =>
    simp [listSetInsert] at hok
    simp [sIns, ← hok]
  | h :: t =>
    by_cases hkh : key < h
    · simp [listSetInsert, hkh] at hok
      simp [sIns, hkh, ← hok]
    · simp [listSetInsert, hkh] at hok
      have hne : key ≠ h := by
        intro he
        have : insertLoop key h t = Except.error key := by
          cases t <;> simp [insertLoop, he]
        rw [this] at hok; exact Except.noConfusion hok
      have hlt : h < key := lt_of_le_of_ne (le_of_not_lt hkh) (Ne.symm hne)
      have := insertLoop_ok_eq key t h l2 hlt hok
      simp [sIns, hkh, this]

lemma listSetInsert_error_of_mem (key : T) (l : List T)
    (hsort : List.Pairwise (· < ·) l) (hmem : key ∈ l) :
    listSetInsert key l = Except.error key := by
  match l with
  | [] => exact absurd hmem (List.not_mem_nil key)
  | h :: t =>
    have hkh : ¬ key < h := by
      intro hlt
      rcases List.mem_cons.mp hmem with he | ht
      · exact absurd he (ne_of_lt hlt)
      · have : h < key := (List.pairwise_cons.mp hsort).1 key ht
        exact absurd hlt (asymm this)
    simp [listSetInsert, hkh]
    exact insertLoop_error_of_mem key t h hsort hmem

lemma mem_sIns (key x : T) : ∀ l : List T, x ∈ sIns key l → x = key ∨ x ∈ l := by
  intro l
  induction l with
  | nil => intro h; simpa [sIns] using h
  | cons h t ih =>
    by_cases hkh : key < h
    · intro hx
      simp [sIns, hkh] at hx
      rcases hx with hx | hx | hx
      · exact Or.inl hx
      · exact Or.inr (by simp [hx])
      · exact Or.inr (by simp [hx])
    · intro hx
      simp [sIns, hkh] at hx
      rcases hx with hx | hx
      · exact Or.inr (by simp [hx])
      · rcases ih hx with hx2 | hx2
        · exact Or.inl hx2
        · exact Or.inr (by simp [hx2])

lemma sIns_sorted (key : T) :
    ∀ l : List T, List.Pairwise (· < ·) l → key ∉ l →
      List.Pairwise (· < ·) (sIns key l) := by
  intro l
  induction l with
  | nil => intro _ _; simp [sIns]
  | cons h t ih =>
    intro hsort hnot
    have hh := List.pairwise_cons.mp hsort
    by_cases hkh : key < h
    · simp only [sIns, if_pos hkh]
      refine List.pairwise_cons.mpr ⟨?_, hsort⟩
      intro b hb
      rcases List.mem_cons.mp hb with hb2 | hb2
      · rw [hb2]; exact hkh
      · exact lt_trans hkh (hh.1 b hb2)
    · have hne : key ≠ h := fun he => hnot (by simp [he])
      have hhk : h < key := lt_of_le_of_ne (le_of_not_lt hkh) (Ne.symm hne)
      simp only [sIns, if_neg hkh]
      refine List.pairwise_cons.mpr ⟨?_, ih hh.2 (fun hk => hnot (by simp [hk]))⟩
      intro b hb
      rcases mem_sIns key b t hb with hb2 | hb2
      · rw [hb2]; exact hhk
      · exact hh.1 b hb2

lemma removeLoop_sublist (key : T) :
    ∀ (rest : List T) (cur d : T) (l2 : List T),
      removeLoop key cur rest = Except.ok (d, l2) → l2.Sublist (cur :: rest) := by
  intro rest
  induction rest with
  | nil => intro cur d l2 h; simp [removeLoop] at h
  | cons next rest2 ih =>
    intro cur d l2 h
    by_cases hnk : next = key
    · simp [removeLoop, hnk] at h
      rw [← h.2]
      exact List.Sublist.cons₂ cur (List.sublist_cons_self next rest2)
    · simp [removeLoop, hnk] at h
      rcases hrec : removeLoop key next rest2 with e | p
      · rw [hrec] at h; simp [Except.map] at h
      · rw [hrec] at h; simp [Except.map] at h
        have hsub := ih next p.1 p.2 (by rw [hrec])
        rw [← h.2]
        exact List.Sublist.cons₂ cur hsub

lemma listSetRemove_ok_sublist (key : T) (l : List T) (d : T) (l2 : List T)
    (hok : listSetRemove key l = Except.ok (d, l2)) : l2.Sublist l := by
  match l with
  | [] => simp [listSetRemove] at hok
  | h :: t =>
    by_cases hhk : h = key
    · simp [listSetRemove, hhk] at hok
      rw [← hok.2]
      exact List.sublist_cons_self h t
    · simp [listSetRemove, hhk] at hok
      exact removeLoop_sublist key t h d l2 hok

lemma removeLoop_error_of_not_mem (key : T) :
    ∀ (rest : List T) (cur : T), key ∉ rest →
      removeLoop key cur rest = Except.error () := by
  intro rest
  induction rest with
  | nil => intro cur _; simp [removeLoop]
  | cons next rest2 ih =>
    intro cur hnot
    have hne : ¬ next = key := fun he => hnot (by simp [he])
    have hrec := ih next (fun hm => hnot (by simp [hm]))
    simp [removeLoop, hne, hrec, Except.map]

lemma listSetRemove_error_of_not_mem (key : T) (l : List T) (hnot : key ∉ l) :
    listSetRemove key l = Except.error () := by
  match l with
  | [] => simp [listSetRemove]
  | h :: t =>
    have hne : ¬ h = key := fun he => hnot (by simp [he])
    have := removeLoop_error_of_not_mem key t h (fun hm => hnot (by simp [hm]))
    simp [listSetRemove, hne, this]

lemma applyOp_sorted (l : List T) (op : SetOp T)
    (hsort : List.Pairwise (· < ·) l) :
    List.Pairwise (· < ·) (applyOp l op) := by
  cases op with
  | ins k =>
    rcases hi : listSetInsert k l with e | l2
    · simp [applyOp, hi]; exact hsort
    · have hnot : k ∉ l := by
        intro hmem
        rw [listSetInsert_error_of_mem k l hsort hmem] at hi
        exact Except.noConfusion hi
      have := listSetInsert_ok_eq k l l2 hi
      simp [applyOp, hi, this]
      exact sIns_sorted k l hsort hnot
  | rem k =>
    rcases hr : listSetRemove k l with e | p
    · simp [applyOp, hr]; exact hsort
    · simp [applyOp, hr]
      exact List.Pairwise.sublist (listSetRemove_ok_sublist k l p.1 p.2 (by rw [hr])) hsort

lemma applyOps_sorted (ops : List (SetOp T)) :
    ∀ l : List T, List.Pairwise (· < ·) l →
      List.Pairwise (· < ·) (applyOps l ops) := by
  induction ops with
  | nil => intro l hs; simpa [applyOps] using hs
  | cons op ops ih =>
    intro l hs
    exact ih (applyOp l op) (applyOp_sorted l op hs)

lemma iterCollect_eq (l : List T) : iterCollect l.length (iterNew l) = l := by
  induction l with
  | nil => simp [iterCollect, iterNew]
  | cons x rest ih =>
    simp [iterCollect, iterNew, iterNext]
    simpa [iterNew] using ih

/-- C2: starting from the empty set, after any sequence of
`OrderedListSet::insert` / `OrderedListSet::remove` operations, a full
traversal through `Iter::next` yields the keys in strictly increasing
order with no duplicates. -/
theorem listSet_traversal_sorted (ops : List (SetOp T)) :
    List.Pairwise (· < ·)
      (iterCollect (applyOps ([] : List T) ops).length
        (iterNew (applyOps ([] : List T) ops))) := by
  rw [iterCollect_eq]
  exact applyOps_sorted ops [] (by simp)

/-- C6: on a sorted chain, inserting a key that is already present returns
`Err` carrying the rejected key back and leaves the set unchanged, and
removing an absent key returns `Err(())` and leaves the set unchanged;
both are ordinary `Result` values. -/
theorem listSet_duplicate_and_absent (l : List T) (key : T)
    (hsort : List.Pairwise (· < ·) l) :
    (key ∈ l → listSetInsert key l = Except.error key ∧
      applyOp l (SetOp.ins key) = l) ∧
    (key ∉ l → listSetRemove key l = Except.error () ∧
      applyOp l (SetOp.rem key) = l) := by
  constructor
  · intro hmem
    have he := listSetInsert_error_of_mem key l hsort hmem
    exact ⟨he, by simp [applyOp, he]⟩
  · intro hnot
    have he := listSetRemove_error_of_not_mem key l hnot
    exact ⟨he, by simp [applyOp, he]⟩

/-- Witness for C6 at the concrete sorted chain `[1, 3]` with the present
key `3` and the absent key `2`. -/
theorem listSet_duplicate_and_absent_witness :
    (listSetInsert 3 [1, 3] = Except.error 3 ∧
      applyOp [1, 3] (SetOp.ins 3) = [1, 3]) ∧
    (listSetRemove 2 [1, 3] = Except.error () ∧
      applyOp [1, 3] (SetOp.rem 2) = [1, 3]) :=
  ⟨(listSet_duplicate_and_absent [1, 3] 3 (by decide)).1 (by decide),
   (listSet_duplicate_and_absent [1, 3] 2 (by decide)).2 (by decide)⟩

/-- C10: the iterator is not fused: whenever `Iter::next` returns `None`
(the end of the list), the internal guard `Option` has been consumed, so
any further call to `Iter::next` panics (`take().unwrap()` on `None`,
modelled as the outer `none`). -/
theorem iter_not_fused {T : Type} (s : Option (List T)) (s2 : Option (List T))
    (h : iterNext s = some (none, s2)) : s2 = none ∧ iterNext s2 = none := by
  match s with
  | none => simp [iterNext] at h
  | some [] =>
    simp [iterNext] at h
    simp [← h, iterNext]
  | some (x :: rest) => simp [iterNext] at h

/-- Witness for C10: on the empty traversal state the first call returns
`None` and the second call panics. -/
theorem iter_not_fused_witness :
    (none : Option (List Nat)) = none ∧ iterNext (none : Option (List Nat)) = none :=
  iter_not_fused (some ([] : List Nat)) none rfl

end ListSetLemmas

section CacheSeqLemmas

variable {K V : Type} [DecidableEq K]

/-- C5: `get_or_insert_with(key, f)` returns the value associated with
`key`: a ready stored value is returned without invoking `f`; on an
absent key, `f key` is invoked exactly once, the result is stored as the
ready entry for `key` (all other keys untouched), and returned. -/
theorem cache_get_or_insert_with_contract
    (m : K → Option (Option V)) (key : K) (f : K → V) :
    (∀ v, m key = some (some v) → get_or_insert_with m key f = some (v, m, 0)) ∧
    (m key = none →
      ∃ m2, get_or_insert_with m key f = some (f key, m2, 1) ∧
        m2 key = some (some (f key)) ∧ ∀ k2, k2 ≠ key → m2 k2 = m k2) := by
  constructor
  · intro v hv
    simp [get_or_insert_with, hv]
  · intro h
    refine ⟨tblInsert (tblInsert m key none) key (some (f key)), ?_, ?_, ?_⟩
    · simp [get_or_insert_with, h]
    · simp [tblInsert]
    · intro k2 hk2
      simp [tblInsert, hk2]

/-- Witness for C5: an empty table, key `0`, computation `k + 7`. -/
theorem cache_get_or_insert_with_contract_witness :
    ∃ m2, get_or_insert_with (fun _ => (none : Option (Option Nat))) 0
        (fun k => k + 7) = some (7, m2, 1) ∧
      m2 0 = some (some 7) ∧
      ∀ k2, k2 ≠ 0 → m2 k2 = (fun _ => (none : Option (Option Nat))) k2 :=
  (cache_get_or_insert_with_contract (fun _ => none) 0 (fun k => k + 7)).2 rfl

end CacheSeqLemmas

section CacheTSLemmas

variable {K V ι : Type} [DecidableEq K] [DecidableEq ι]
variable (key : K) (f : K → V)

lemma tblInsert_same (m : K → Option (Option V)) (k : K) (e : Option V) :
    tblInsert m k e k = some e := by
  simp [tblInsert]

lemma setPc_pcs (σ : CacheState K V ι) (i : ι) (p : CachePc V) (j : ι) :
    (setPc σ i p).pcs j = if j = i then p else σ.pcs j :=
  Function.update_apply σ.pcs i p j

/-- A step that only moves a non-claiming thread to a non-claiming,
non-panicking location, and whose target location is consistent with the
current entry, preserves the invariant. -/
lemma cacheInv_setPc (σ : CacheState K V ι) (i : ι) (p : CachePc V)
    (hinv : CacheInv key f σ)
    (hnco : ¬ IsClaimer σ i)
    (hpp : p ≠ CachePc.panicked)
    (hpr : p ≠ CachePc.run)
    (hpb : p ≠ CachePc.publish)
    (hwait : p = CachePc.wait → σ.table key ≠ none)
    (hread : p = CachePc.readRes → σ.table key = some (some (f key)))
    (hdone : ∀ v, p = CachePc.done v → v = f key ∧
      σ.table key = some (some (f key))) :
    CacheInv key f (setPc σ i p) := by
  obtain ⟨hnp, hw, hr, hd, hab, hpend, hrdy⟩ := hinv
  have hclaim_new : ∀ j, IsClaimer (setPc σ i p) j → j ≠ i ∧ IsClaimer σ j := by
    intro j hcl
    by_cases hj : j = i
    · exfalso
      rcases hcl with hc | hc <;> rw [setPc_pcs, if_pos hj] at hc
      · exact hpr hc
      · exact hpb hc
    · refine ⟨hj, ?_⟩
      rcases hcl with hc | hc <;> rw [setPc_pcs, if_neg hj] at hc
      · exact Or.inl hc
      · exact Or.inr hc
  refine ⟨?_, ?_, ?_, ?_, ?_, ?_, ?_⟩
  · intro j
    rw [setPc_pcs]
    by_cases hj : j = i
    · simpa [hj] using hpp
    · simpa [hj] using hnp j
  · intro j hwj
    rw [setPc_pcs] at hwj
    by_cases hj : j = i
    · rw [if_pos hj] at hwj; exact hwait hwj
    · rw [if_neg hj] at hwj; exact hw j hwj
  · intro j hrj
    rw [setPc_pcs] at hrj
    by_cases hj : j = i
    · rw [if_pos hj] at hrj; exact hread hrj
    · rw [if_neg hj] at hrj; exact hr j hrj
  · intro j v hdj
    rw [setPc_pcs] at hdj
    by_cases hj : j = i
    · rw [if_pos hj] at hdj; exact hdone v hdj
    · rw [if_neg hj] at hdj; exact hd j v hdj
  · intro h0
    obtain ⟨h1, h2⟩ := hab h0
    exact ⟨h1, fun j hcl => h2 j (hclaim_new j hcl).2⟩
  · intro h0
    obtain ⟨i0, hi0, huniq⟩ := hpend h0
    have hi0ne : i0 ≠ i := by
      intro he
      apply hnco
      rcases hi0 with ⟨hc, _⟩ | ⟨hc, _⟩
      · exact Or.inl (he ▸ hc)
      · exact Or.inr (he ▸ hc)
    refine ⟨i0, ?_, ?_⟩
    · rcases hi0 with ⟨hc, hf⟩ | ⟨hc, hf⟩
      · exact Or.inl ⟨by rw [setPc_pcs, if_neg hi0ne]; exact hc, hf⟩
      · exact Or.inr ⟨by rw [setPc_pcs, if_neg hi0ne]; exact hc, hf⟩
    · intro j hcl
      exact huniq j (hclaim_new j hcl).2
  · intro v hv
    obtain ⟨hveq, hfc1, hnc⟩ := hrdy v hv
    exact ⟨hveq, hfc1, fun j hcl => hnc j (hclaim_new j hcl).2⟩

/-- The invariant is preserved by every step of every thread. -/
lemma cacheInv_step (σ σ2 : CacheState K V ι) (i : ι)
    (hstep : CacheThreadStep key f i σ σ2) (hinv : CacheInv key f σ) :
    CacheInv key f σ2 := by
  cases hstep with
  | startHit e hpc htb =>
    refine cacheInv_setPc key f _ i _ hinv ?_ (by simp) (by simp) (by simp)
      (fun _ => by rw [htb]; simp) (fun hc => absurd hc (by simp))
      (fun v hc => absurd hc (by simp))
    intro hcl
    rcases hcl with hc | hc <;> rw [hpc] at hc <;> exact CachePc.noConfusion hc
  | startMiss hpc htb =>
    refine cacheInv_setPc key f _ i _ hinv ?_ (by simp) (by simp) (by simp)
      (fun hc => absurd hc (by simp)) (fun hc => absurd hc (by simp))
      (fun v hc => absurd hc (by simp))
    intro hcl
    rcases hcl with hc | hc <;> rw [hpc] at hc <;> exact CachePc.noConfusion hc
  | waitPanic hpc htb =>
    exact absurd htb (hinv.waitSome i hpc)
  | waitReady v hpc htb =>
    have hveq := (hinv.ready v htb).1
    refine cacheInv_setPc key f _ i _ hinv ?_ (by simp) (by simp) (by simp)
      (fun hc => absurd hc (by simp)) (fun _ => by rw [htb, hveq])
      (fun v2 hc => absurd hc (by simp))
    intro hcl
    rcases hcl with hc | hc <;> rw [hpc] at hc <;> exact CachePc.noConfusion hc
  | readResOk v hpc htb =>
    have hready := hinv.readReady i hpc
    have hveq : v = f key := by
      rw [htb] at hready
      exact Option.some_injective _ (Option.some_injective _ hready)
    refine cacheInv_setPc key f _ i _ hinv ?_ (by simp) (by simp) (by simp)
      (fun hc => absurd hc (by simp)) (fun hc => absurd hc (by simp)) ?_
    · intro hcl
      rcases hcl with hc | hc <;> rw [hpc] at hc <;> exact CachePc.noConfusion hc
    · intro v2 hc
      have : v2 = v := by
        cases hc
        rfl
      rw [this, hveq]
      exact ⟨rfl, hinv.readReady i hpc⟩
  | readResPanicAbsent hpc htb =>
    have := hinv.readReady i hpc
    rw [htb] at this
    exact Option.noConfusion this
  | readResPanicPending hpc htb =>
    have := hinv.readReady i hpc
    rw [htb] at this
    exact Option.noConfusion (Option.some_injective _ this)
  | claimLost e hpc htb =>
    refine cacheInv_setPc key f _ i _ hinv ?_ (by simp) (by simp) (by simp)
      (fun _ => by rw [htb]; simp) (fun hc => absurd hc (by simp))
      (fun v hc => absurd hc (by simp))
    intro hcl
    rcases hcl with hc | hc <;> rw [hpc] at hc <;> exact CachePc.noConfusion hc
  | claimWon hpc htb =>
    obtain ⟨hnp, hw, hr, hd, hab, hpend, hrdy⟩ := hinv
    obtain ⟨hf0, hnc⟩ := hab htb
    refine ⟨?_, ?_, ?_, ?_, ?_, ?_, ?_⟩
    · intro j
      rw [show (⟨tblInsert σ.table key none, σ.fCount,
          Function.update σ.pcs i CachePc.run⟩ : CacheState K V ι).pcs j =
          Function.update σ.pcs i CachePc.run j from rfl, Function.update_apply]
      by_cases hj : j = i
      · simp [hj]
      · simpa [hj] using hnp j
    · intro j _
      simp [tblInsert_same]
    · intro j hrj
      rw [show (⟨tblInsert σ.table key none, σ.fCount,
          Function.update σ.pcs i CachePc.run⟩ : CacheState K V ι).pcs j =
          Function.update σ.pcs i CachePc.run j from rfl,
        Function.update_apply] at hrj
      by_cases hj : j = i
      · rw [if_pos hj] at hrj; exact CachePc.noConfusion hrj
      · rw [if_neg hj] at hrj
        have := hr j hrj
        rw [htb] at this
        exact Option.noConfusion this
    · intro j v hdj
      rw [show (⟨tblInsert σ.table key none, σ.fCount,
          Function.update σ.pcs i CachePc.run⟩ : CacheState K V ι).pcs j =
          Function.update σ.pcs i CachePc.run j from rfl,
        Function.update_apply] at hdj
      by_cases hj : j = i
      · rw [if_pos hj] at hdj; exact CachePc.noConfusion hdj
      · rw [if_neg hj] at hdj
        have := (hd j v hdj).2
        rw [htb] at this
        exact absurd this (by simp)
    · intro h0
      rw [show (⟨tblInsert σ.table key none, σ.fCount,
          Function.update σ.pcs i CachePc.run⟩ : CacheState K V ι).table =
          tblInsert σ.table key none from rfl, tblInsert_same] at h0
      exact Option.noConfusion h0
    · intro _
      refine ⟨i, Or.inl ⟨?_, hf0⟩, ?_⟩
      · rw [show (⟨tblInsert σ.table key none, σ.fCount,
            Function.update σ.pcs i CachePc.run⟩ : CacheState K V ι).pcs i =
            Function.update σ.pcs i CachePc.run i from rfl, Function.update_same]
      · intro j hcl
        by_cases hj : j = i
        · exact hj
        · exfalso
          apply hnc j
          rcases hcl with hc | hc <;>
            rw [show (⟨tblInsert σ.table key none, σ.fCount,
              Function.update σ.pcs i CachePc.run⟩ : CacheState K V ι).pcs j =
              Function.update σ.pcs i CachePc.run j from rfl,
              Function.update_apply, if_neg hj] at hc
          · exact Or.inl hc
          · exact Or.inr hc
    · intro v hv
      rw [show (⟨tblInsert σ.table key none, σ.fCount,
          Function.update σ.pcs i CachePc.run⟩ : CacheState K V ι).table =
          tblInsert σ.table key none from rfl, tblInsert_same] at hv
      exact Option.noConfusion (Option.some_injective _ hv)
  | runF hpc =>
    obtain ⟨hnp, hw, hr, hd, hab, hpend, hrdy⟩ := hinv
    have hicl : IsClaimer σ i := Or.inl hpc
    rcases htk : σ.table key with _ | e
    · exact absurd hicl ((hab htk).2 i)
    · rcases e with _ | v
      · obtain ⟨i0, hi0, huniq⟩ := hpend htk
        have hii0 : i = i0 := huniq i hicl
        have hf0 : σ.fCount = 0 := by
          rcases hi0 with ⟨_, hf⟩ | ⟨hc, _⟩
          · exact hf
          · rw [← hii0, hpc] at hc; exact CachePc.noConfusion hc
        refine ⟨?_, ?_, ?_, ?_, ?_, ?_, ?_⟩
        · intro j
          rw [show (⟨σ.table, σ.fCount + 1,
              Function.update σ.pcs i CachePc.publish⟩ : CacheState K V ι).pcs j =
              Function.update σ.pcs i CachePc.publish j from rfl,
            Function.update_apply]
          by_cases hj : j = i
          · simp [hj]
          · simpa [hj] using hnp j
        · intro j _
          rw [show (⟨σ.table, σ.fCount + 1,
              Function.update σ.pcs i CachePc.publish⟩ : CacheState K V ι).table =
              σ.table from rfl, htk]
          simp
        · intro j hrj
          rw [show (⟨σ.table, σ.fCount + 1,
              Function.update σ.pcs i CachePc.publish⟩ : CacheState K V ι).pcs j =
              Function.update σ.pcs i CachePc.publish j from rfl,
            Function.update_apply] at hrj
          by_cases hj : j = i
          · rw [if_pos hj] at hrj; exact CachePc.noConfusion hrj
          · rw [if_neg hj] at hrj
            have := hr j hrj
            rw [htk] at this
            exact absurd this (by simp)
        · intro j v2 hdj
          rw [show (⟨σ.table, σ.fCount + 1,
              Function.update σ.pcs i CachePc.publish⟩ : CacheState K V ι).pcs j =
              Function.update σ.pcs i CachePc.publish j from rfl,
            Function.update_apply] at hdj
          by_cases hj : j = i
          · rw [if_pos hj] at hdj; exact CachePc.noConfusion hdj
          · rw [if_neg hj] at hdj
            have := (hd j v2 hdj).2
            rw [htk] at this
            exact absurd this (by simp)
        · intro h0
          rw [show (⟨σ.table, σ.fCount + 1,
              Function.update σ.pcs i CachePc.publish⟩ : CacheState K V ι).table =
              σ.table from rfl, htk] at h0
          exact Option.noConfusion h0
        · intro _
          refine ⟨i, Or.inr ⟨?_, by rw [show (⟨σ.table, σ.fCount + 1,
              Function.update σ.pcs i CachePc.publish⟩ : CacheState K V ι).fCount =
              σ.fCount + 1 from rfl, hf0]⟩, ?_⟩
          · rw [show (⟨σ.table, σ.fCount + 1,
                Function.update σ.pcs i CachePc.publish⟩ : CacheState K V ι).pcs i =
                Function.update σ.pcs i CachePc.publish i from rfl,
              Function.update_same]
          · intro j hcl
            by_cases hj : j = i
            · exact hj
            · rcases hcl with hc | hc <;>
                rw [show (⟨σ.table, σ.fCount + 1,
                  Function.update σ.pcs i CachePc.publish⟩ : CacheState K V ι).pcs j =
                  Function.update σ.pcs i CachePc.publish j from rfl,
                  Function.update_apply, if_neg hj] at hc
              · exact (huniq j (Or.inl hc)).trans hii0.symm
              · exact (huniq j (Or.inr hc)).trans hii0.symm
        · intro v hv
          rw [show (⟨σ.table, σ.fCount + 1,
              Function.update σ.pcs i CachePc.publish⟩ : CacheState K V ι).table =
              σ.table from rfl, htk] at hv
          exact Option.noConfusion (Option.some_injective _ hv)
      · exact absurd hicl ((hrdy v htk).2.2 i)
  | publishStep hpc =>
    obtain ⟨hnp, hw, hr, hd, hab, hpend, hrdy⟩ := hinv
    have hicl : IsClaimer σ i := Or.inr hpc
    rcases htk : σ.table key with _ | e
    · exact absurd hicl ((hab htk).2 i)
    · rcases e with _ | v
      · obtain ⟨i0, hi0, huniq⟩ := hpend htk
        have hii0 : i = i0 := huniq i hicl
        have hf1 : σ.fCount = 1 := by
          rcases hi0 with ⟨hc, _⟩ | ⟨_, hf⟩
          · rw [← hii0, hpc] at hc; exact CachePc.noConfusion hc
          · exact hf
        refine ⟨?_, ?_, ?_, ?_, ?_, ?_, ?_⟩
        · intro j
          rw [show (⟨tblInsert σ.table key (some (f key)), σ.fCount,
              Function.update σ.pcs i (CachePc.done (f key))⟩ :
              CacheState K V ι).pcs j =
              Function.update σ.pcs i (CachePc.done (f key)) j from rfl,
            Function.update_apply]
          by_cases hj : j = i
          · simp [hj]
          · simpa [hj] using hnp j
        · intro j _
          simp [tblInsert_same]
        · intro j hrj
          rw [show (⟨tblInsert σ.table key (some (f key)), σ.fCount,
              Function.update σ.pcs i (CachePc.done (f key))⟩ :
              CacheState K V ι).pcs j =
              Function.update σ.pcs i (CachePc.done (f key)) j from rfl,
            Function.update_apply] at hrj
          by_cases hj : j = i
          · rw [if_pos hj] at hrj; exact CachePc.noConfusion hrj
          · rw [if_neg hj] at hrj
            have := hr j hrj
            rw [htk] at this
            exact absurd this (by simp)
        · intro j v2 hdj
          rw [show (⟨tblInsert σ.table key (some (f key)), σ.fCount,
              Function.update σ.pcs i (CachePc.done (f key))⟩ :
              CacheState K V ι).pcs j =
              Function.update σ.pcs i (CachePc.done (f key)) j from rfl,
            Function.update_apply] at hdj
          by_cases hj : j = i
          · rw [if_pos hj] at hdj
            have hv2 : v2 = f key := by
              cases hdj
              rfl
            rw [hv2]
            exact ⟨rfl, by rw [show (⟨tblInsert σ.table key (some (f key)), σ.fCount,
              Function.update σ.pcs i (CachePc.done (f key))⟩ :
              CacheState K V ι).table = tblInsert σ.table key (some (f key)) from rfl,
              tblInsert_same]⟩
          · rw [if_neg hj] at hdj
            have := (hd j v2 hdj).2
            rw [htk] at this
            exact absurd this (by simp)
        · intro h0
          rw [show (⟨tblInsert σ.table key (some (f key)), σ.fCount,
              Function.update σ.pcs i (CachePc.done (f key))⟩ :
              CacheState K V ι).table = tblInsert σ.table key (some (f key)) from rfl,
            tblInsert_same] at h0
          exact Option.noConfusion h0
        · intro h0
          rw [show (⟨tblInsert σ.table key (some (f key)), σ.fCount,
              Function.update σ.pcs i (CachePc.done (f key))⟩ :
              CacheState K V ι).table = tblInsert σ.table key (some (f key)) from rfl,
            tblInsert_same] at h0
          exact Option.noConfusion (Option.some_injective _ h0)
        · intro v2 hv2
          rw [show (⟨tblInsert σ.table key (some (f key)), σ.fCount,
              Function.update σ.pcs i (CachePc.done (f key))⟩ :
              CacheState K V ι).table = tblInsert σ.table key (some (f key)) from rfl,
            tblInsert_same] at hv2
          have hveq : v2 = f key :=
            (Option.some_injective _ (Option.some_injective _ hv2)).symm
          refine ⟨hveq, by rw [show (⟨tblInsert σ.table key (some (f key)), σ.fCount,
            Function.update σ.pcs i (CachePc.done (f key))⟩ :
            CacheState K V ι).fCount = σ.fCount from rfl, hf1], ?_⟩
          intro j hcl
          by_cases hj : j = i
          · rcases hcl with hc | hc <;>
              rw [show (⟨tblInsert σ.table key (some (f key)), σ.fCount,
                Function.update σ.pcs i (CachePc.done (f key))⟩ :
                CacheState K V ι).pcs j =
                Function.update σ.pcs i (CachePc.done (f key)) j from rfl,
                Function.update_apply, if_pos hj] at hc <;>
              exact CachePc.noConfusion hc
          · rcases hcl with hc | hc <;>
              rw [show (⟨tblInsert σ.table key (some (f key)), σ.fCount,
                Function.update σ.pcs i (CachePc.done (f key))⟩ :
                CacheState K V ι).pcs j =
                Function.update σ.pcs i (CachePc.done (f key)) j from rfl,
                Function.update_apply, if_neg hj] at hc
            · exact hj ((huniq j (Or.inl hc)).trans hii0.symm)
            · exact hj ((huniq j (Or.inr hc)).trans hii0.symm)
      · exact absurd hicl ((hrdy v htk).2.2 i)

/-- The invariant holds initially when the key is absent. -/
lemma cacheInv_init (m0 : K → Option (Option V)) (h0 : m0 key = none) :
    CacheInv key f (cacheInit m0 : CacheState K V ι) := by
  refine ⟨?_, ?_, ?_, ?_, ?_, ?_, ?_⟩
  · intro j
    simp [cacheInit]
  · intro j hj
    exact absurd hj (by simp [cacheInit])
  · intro j hj
    exact absurd hj (by simp [cacheInit])
  · intro j v hj
    exact absurd hj (by simp [cacheInit])
  · intro _
    refine ⟨rfl, ?_⟩
    intro j hcl
    rcases hcl with hc | hc <;> exact CachePc.noConfusion hc
  · intro h
    rw [show (cacheInit m0 : CacheState K V ι).table = m0 from rfl, h0] at h
    exact Option.noConfusion h
  · intro v hv
    rw [show (cacheInit m0 : CacheState K V ι).table = m0 from rfl, h0] at hv
    exact Option.noConfusion hv

/-- The invariant holds in every reachable state. -/
lemma cacheInv_reachable (m0 : K → Option (Option V)) (h0 : m0 key = none)
    (σ : CacheState K V ι)
    (hreach : Relation.ReflTransGen (CacheStep key f) (cacheInit m0) σ) :
    CacheInv key f σ := by
  induction hreach with
  | refl => exact cacheInv_init key f m0 h0
  | tail hsteps hstep ih =>
    obtain ⟨i, hi⟩ := hstep
    exact cacheInv_step key f _ _ i hi ih

/-- C1: under any interleaving of any number of concurrent
`get_or_insert_with(key, f)` callers starting with `key` absent, the
computation `f` has run at most once in every reachable state and exactly
once as soon as every caller has returned; a caller only ever returns
after the result has been published, and every returned value is the
single computed value `f key` (also, no caller ever hits a failing
`unwrap`). -/
theorem cache_single_flight {K V ι : Type} [DecidableEq K] [DecidableEq ι]
    [Nonempty ι] (key : K) (f : K → V) (m0 : K → Option (Option V))
    (h0 : m0 key = none) (σ : CacheState K V ι)
    (hreach : Relation.ReflTransGen (CacheStep key f) (cacheInit m0) σ) :
    σ.fCount ≤ 1 ∧
    (∀ i v, σ.pcs i = CachePc.done v → v = f key ∧
      σ.table key = some (some (f key))) ∧
    ((∀ i, ∃ v, σ.pcs i = CachePc.done v) → σ.fCount = 1) ∧
    (∀ i, σ.pcs i ≠ CachePc.panicked) := by
  have hinv := cacheInv_reachable key f m0 h0 σ hreach
  obtain ⟨hnp, hw, hr, hd, hab, hpend, hrdy⟩ := hinv
  refine ⟨?_, hd, ?_, hnp⟩
  · rcases htk : σ.table key with _ | e
    · rw [(hab htk).1]; exact Nat.zero_le 1
    · rcases e with _ | v
      · obtain ⟨i0, hi0, _⟩ := hpend htk
        rcases hi0 with ⟨_, hf⟩ | ⟨_, hf⟩ <;> omega
      · rw [(hrdy v htk).2.1]
  · intro hall
    obtain ⟨i0⟩ : Nonempty ι := inferInstance
    obtain ⟨v, hv⟩ := hall i0
    exact (hrdy (f key) (hd i0 v hv).2).2.1

/-- Witness for C1: one caller, key `0`, computation `k + 7`, at the
(reachable) initial state. -/
theorem cache_single_flight_witness :
    ((cacheInit (fun _ => none) : CacheState Nat Nat (Fin 1)).fCount ≤ 1) ∧
    (∀ i v,
      (cacheInit (fun _ => none) : CacheState Nat Nat (Fin 1)).pcs i =
        CachePc.done v →
      v = (fun k => k + 7) 0 ∧
      (cacheInit (fun _ => none) : CacheState Nat Nat (Fin 1)).table 0 =
        some (some ((fun k => k + 7) 0))) ∧
    ((∀ i, ∃ v,
      (cacheInit (fun _ => none) : CacheState Nat Nat (Fin 1)).pcs i =
        CachePc.done v) →
      (cacheInit (fun _ => none) : CacheState Nat Nat (Fin 1)).fCount = 1) ∧
    (∀ i, (cacheInit (fun _ => none) : CacheState Nat Nat (Fin 1)).pcs i ≠
      CachePc.panicked) :=
  cache_single_flight 0 (fun k => k + 7) (fun _ => none) rfl _
    Relation.ReflTransGen.refl

end CacheTSLemmas

section ThreadPoolLemmas

/-- Counterexample to C3 as stated: a job that panics is dequeued and the
count is incremented, but `finish_job` is never reached, so the count is
decremented zero times, not once. -/
theorem worker_decrement_on_panic_counterexample :
    ¬ (workerRunJob 0 true).decs = 1 := by decide

/-- C3 (amended): for every job processed by a worker, the outstanding
count is incremented exactly once when the job is dequeued for execution;
it is decremented exactly once when the job returns normally, but when
the job panics the decrement never happens (the worker thread unwinds
between `start_job` and `finish_job`), leaving the count incremented. -/
theorem worker_job_count_accounting (c : Nat) (jobPanics : Bool) :
    (workerRunJob c jobPanics).incs = 1 ∧
    (workerRunJob c jobPanics).decs = (if jobPanics then 0 else 1) ∧
    (workerRunJob c jobPanics).countAfter = (if jobPanics then c + 1 else c) ∧
    (workerRunJob c jobPanics).workerPanicked = jobPanics := by
  cases jobPanics <;> simp [workerRunJob, start_job, finish_job]

/-- C4: the code contradicts `join`'s contract.  From a state with one job
enqueued before `join` is called, the scheduler may run: the worker
dequeues the job (channel now empty, count still 0, `start_job` not yet
called); the joiner sees `len() == 0` and falls through to `wait_empty`;
`wait_empty` sees `job_count == 0` and returns.  `join` has returned while
the enqueued job has not been executed. -/
theorem pool_join_returns_before_job_executes :
    Relation.ReflTransGen PoolStep poolRaceInit poolRaceFinal ∧
    poolRaceInit.queue.length = 1 ∧
    poolRaceInit.joiner = JoinerPc.checkLen ∧
    poolRaceFinal.joiner = JoinerPc.returned ∧
    poolRaceFinal.executed = 0 ∧
    poolRaceFinal.worker = WorkerPc.gotJob := by
  refine ⟨?_, rfl, rfl, rfl, rfl, rfl⟩
  have h1 : PoolStep poolRaceInit ⟨[], 0, WorkerPc.gotJob, JoinerPc.checkLen, 0⟩ :=
    PoolStep.recvJob [] 0 JoinerPc.checkLen 0
  have h2 : PoolStep ⟨[], 0, WorkerPc.gotJob, JoinerPc.checkLen, 0⟩
      ⟨[], 0, WorkerPc.gotJob, JoinerPc.waitCount, 0⟩ :=
    PoolStep.joinLenZero 0 WorkerPc.gotJob 0
  have h3 : PoolStep ⟨[], 0, WorkerPc.gotJob, JoinerPc.waitCount, 0⟩ poolRaceFinal :=
    PoolStep.joinCountZero [] WorkerPc.gotJob 0
  exact Relation.ReflTransGen.head h1
    (Relation.ReflTransGen.head h2 (Relation.ReflTransGen.single h3))

lemma joinWorkers_fst (ws : List (Option String)) :
    (joinWorkers ws).1 = ws.length := by
  induction ws with
  | nil => simp [joinWorkers]
  | cons w ws ih => simp [joinWorkers, ih]

lemma joinWorkers_snd (ws : List (Option String)) :
    (joinWorkers ws).2 ≠ none ↔ ∃ w ∈ ws, w ≠ none := by
  induction ws with
  | nil => simp [joinWorkers]
  | cons w ws ih =>
    cases w with
    | none => simp [joinWorkers, ih]
    | some msg => simp [joinWorkers]

lemma workerDrainClosed_eq (q : List Unit) : workerDrainClosed q = q.length := by
  induction q with
  | nil => simp [workerDrainClosed]
  | cons j q ih => simp [workerDrainClosed, ih]

/-- C7: dropping the pool closes the job channel; after the close the
worker loop executes every job still buffered in the channel and then
exits; every worker thread is joined during the drop; and a panic from
any worker thread is propagated to the caller performing the teardown. -/
theorem threadPool_drop_teardown (p : ThreadPoolState) (q : List Unit) :
    (threadPoolDrop p).channelClosed = true ∧
    (threadPoolDrop p).joinedThreads = p.workers.length ∧
    ((threadPoolDrop p).propagatedPanic ≠ none ↔ ∃ w ∈ p.workers, w ≠ none) ∧
    workerDrainClosed q = q.length :=
  ⟨rfl, joinWorkers_fst p.workers, joinWorkers_snd p.workers, workerDrainClosed_eq q⟩

/-- C8: `ThreadPool::new(size)` panics exactly when `size == 0`, and for
positive `size` it builds a pool with exactly `size` worker threads. -/
theorem threadPool_new_size (size : Nat) :
    ((∃ e, threadPoolNew size = Except.error e) ↔ size = 0) ∧
    (∀ p, threadPoolNew size = Except.ok p → p.workers.length = size) := by
  constructor
  · constructor
    · rintro ⟨e, he⟩
      by_contra hne
      have hpos : 0 < size := Nat.pos_of_ne_zero hne
      simp [threadPoolNew, hpos] at he
    · intro h
      subst h
      exact ⟨"assertion failed: size > 0", by simp [threadPoolNew]⟩
  · intro p hp
    by_cases hpos : 0 < size
    · simp [threadPoolNew, hpos] at hp
      rw [← hp]
      simp
    · simp [threadPoolNew, hpos] at hp

/-- Witness for C8: size `3` yields three workers; size `0` panics. -/
theorem threadPool_new_size_witness :
    (List.range 3).length = 3 ∧ (∃ e, threadPoolNew 0 = Except.error e) :=
  ⟨(threadPool_new_size 3).2 ⟨List.range 3, true, 0⟩ rfl,
   (threadPool_new_size 0).1.mpr rfl⟩

end ThreadPoolLemmas

section StackLemmas

variable {T : Type}

lemma stackPushAll_eq (vs : List T) :
    ∀ acc : List T, stackPushAll acc vs = vs.reverse ++ acc := by
  induction vs with
  | nil => intro acc; simp [stackPushAll]
  | cons v vs ih =>
    intro acc
    have : stackPushAll acc (v :: vs) = stackPushAll (v :: acc) vs := rfl
    rw [this, ih (v :: acc)]
    simp

lemma stackPopAll_id (l : List T) : stackPopAll l = l := by
  induction l with
  | nil => simp [stackPopAll]
  | cons x s ih => simp [stackPopAll, ih]

/-- C9: used by a single thread, the stack is exactly LIFO: popping
everything after pushing `vs` returns the values in exact reverse push
order, each pop removes precisely the most recently pushed remaining
value, and pop on an empty stack returns `none`, never an error. -/
theorem elim_stack_single_thread_lifo (vs : List T) (v : T) (s : List T) :
    stackPopAll (stackPushAll [] vs) = vs.reverse ∧
    stackPop (stackPush v s) = (some v, s) ∧
    (stackPop ([] : List T)).1 = none := by
  refine ⟨?_, rfl, rfl⟩
  rw [stackPopAll_id, stackPushAll_eq]
  simp

end StackLemmas

end CS431
